import Mathlib

/-!
Verification development for the "Pulse Habits" habit-tracking client
(`src/habit-tracker/src/app/page.tsx`).

The source is a single TypeScript/React file.  The pure computation layer
(date keys, streaks, store transformations, reminder evaluation, storage
loading) is embedded shallowly below; React state plumbing and rendering are
outside the model.

Modelling conventions, used throughout:

* A calendar date identifier (`"YYYY-MM-DD"` string in the source, produced
  by `getDateKey`) is modelled as an epoch-day integer (`Int`).  For valid
  zero-padded `YYYY-MM-DD` strings, lexicographic string order — which is
  what JavaScript's default `Array.sort()` uses — coincides with
  chronological order, so sorting, equality and membership transfer exactly.
  Decrementing a `Date` by one calendar day (`d.setDate(d.getDate() - 1)`)
  becomes integer subtraction.
* Reminder times stay `String`s (`"HH:MM"`), as in the source; JavaScript's
  lexicographic string sort is Lean's `String` linear order on ASCII.
* `new Set(xs)` followed by iteration is modelled by `jsDedup` (keep the
  first occurrence of each element, in order).
* `s.split(":")` is modelled by `splitOnChar ':'` over the string's
  character list, matching JavaScript's single-character-separator split
  (`"".split(":") = [""]`, `"a:".split(":") = ["a", ""]`).
* `Number(component)` on a split component is modelled by `jsNumber`:
  the empty string yields `0` (as in JavaScript), an optionally
  `'-'`-signed nonempty digit string yields the integer it denotes, and
  anything else yields `none` (`NaN`).  Exotic JavaScript numeric forms
  (hex, decimals, exponents, surrounding whitespace) are outside the model.
-/

namespace HabitTracker

/-- JavaScript `String.prototype.split` with a one-character separator,
acting on the character list: `"" ↦ [""]`, separators at the ends produce
empty components. -/
def splitOnChar (sep : Char) : List Char → List (List Char)
  | [] => [[]]
  | c :: cs =>
    if c = sep then [] :: splitOnChar sep cs
    else
      match splitOnChar sep cs with
      | [] => [[c]]
      | p :: ps => (c :: p) :: ps

/-- JavaScript `Number()` applied to a split component, restricted to the
forms that matter here: `Number("") = 0`, an optionally `'-'`-signed
nonempty decimal-digit string denotes its integer value, and every other
string is `NaN` (`none`).  Hex/decimal/exponent literals and surrounding
whitespace are outside the model. -/
def jsNumber (s : List Char) : Option Int :=
  match s with
  | [] => some 0
  | '-' :: rest =>
    if rest ≠ [] ∧ rest.all Char.isDigit then
      some (-(Int.ofNat (rest.foldl (fun n c => 10 * n + (c.toNat - '0'.toNat)) 0)))
    else none
  | _ =>
    if s.all Char.isDigit then
      some (Int.ofNat (s.foldl (fun n c => 10 * n + (c.toNat - '0'.toNat)) 0))
    else none

/-- `new Set(l)` followed by `Array.from`: drop repeated elements, keeping
the first occurrence of each, in order.  `seen` accumulates the elements
already emitted. -/
def jsDedupAux {α : Type} [DecidableEq α] : List α → List α → List α
  | [], _ => []
  | x :: xs, seen =>
    if x ∈ seen then jsDedupAux xs seen else x :: jsDedupAux xs (x :: seen)

/-- `Array.from(new Set(l))`. -/
def jsDedup {α : Type} [DecidableEq α] (l : List α) : List α :=
  jsDedupAux l []

/-- JavaScript `String.prototype.trim`, modelled with Lean's ASCII
whitespace predicate (space, tab, CR, LF); the extra Unicode space
characters JavaScript also strips are outside the model. -/
def jsTrim (s : String) : String :=
  String.mk (((s.data.dropWhile Char.isWhitespace).reverse.dropWhile Char.isWhitespace).reverse)

/-- A habit record, as in the source's `Habit` type.  `completions` holds
date identifiers (epoch-day integers standing for the source's
`"YYYY-MM-DD"` strings); `reminders` holds `"HH:MM"` strings. -/
structure Habit where
  id : String
  name : String
  emoji : String
  color : String
  goalPerWeek : Int
  reminders : List String
  completions : List Int
  createdAt : String
deriving DecidableEq, Repr

/-- An emitted reminder alert (the source's `ReminderAlert`, minus the
display-only `id` string, which is the cache key plus the timestamp). -/
structure ReminderAlert where
  habitId : String
  habitName : String
  time : String
  timestamp : Int
deriving DecidableEq, Repr

/-- A wall-clock moment: the calendar day (epoch-day integer, what
`getDateKey` extracts) plus the local time of day. -/
structure Moment where
  day : Int
  hour : Nat
  minute : Nat
  second : Nat
deriving DecidableEq, Repr

/-- `getDateKey(date)`: normalize a moment to its calendar-date identifier.
In the source this formats `"YYYY-MM-DD"`; in the epoch-day model it is the
moment's day component. -/
def getDateKey (m : Moment) : Int := m.day

/-- `date.setDate(date.getDate() - 1)`: the same moment one calendar day
earlier. -/
def Moment.prevDay (m : Moment) : Moment :=
  { m with day := m.day - 1 }

/-- The loop body of `getLastSevenDays`: `days.unshift(getDateKey(cursor))`
then `cursor.setDate(cursor.getDate() - 1)`, `count` times. -/
def getLastSevenDaysAux : Nat → Moment → List Int → List Int
  | 0, _, days => days
  | count + 1, cursor, days =>
    getLastSevenDaysAux count cursor.prevDay (getDateKey cursor :: days)

/-- `getLastSevenDays()`: the last seven calendar-date identifiers, oldest
first, ending at the current day. -/
def getLastSevenDays (now : Moment) : List Int :=
  getLastSevenDaysAux 7 now []

/-- `handleToggleCompletion`'s per-habit completions update:
`new Set(completions)`, delete `dateKey` if present else add it, then
`Array.from(...).sort()`. -/
def toggledCompletions (completions : List Int) (dateKey : Int) : List Int :=
  let s := jsDedup completions
  let s' := if dateKey ∈ s then s.filter (fun d => d ≠ dateKey) else s ++ [dateKey]
  List.insertionSort (· ≤ ·) s'

/-- `handleToggleCompletion(habitId, dateKey)`: toggle `dateKey` in the
target habit's completion set; all other habits are returned unchanged. -/
def handleToggleCompletion (habits : List Habit) (habitId : String) (dateKey : Int) :
    List Habit :=
  habits.map fun habit =>
    if habit.id ≠ habitId then habit
    else { habit with completions := toggledCompletions habit.completions dateKey }

/-- The draft a new habit is created from (the source's `name`, `emoji`,
`goalPerWeek` and `reminderTime` component states). -/
structure HabitDraft where
  name : String
  emoji : String
  goalPerWeek : Int
  reminderTime : String
deriving DecidableEq, Repr

/-- `handleAddHabit()`: reject (identity) when the trimmed name is empty,
otherwise prepend the new habit.  The randomly generated id and color and
the creation timestamp are injected as parameters (`crypto.randomUUID()`,
the random `GRADIENTS` pick, `new Date().toISOString()`). -/
def handleAddHabit (habits : List Habit) (draft : HabitDraft)
    (freshId color createdAt : String) : List Habit :=
  if jsTrim draft.name = "" then habits
  else
    { id := freshId
      name := jsTrim draft.name
      emoji := if jsTrim draft.emoji = "" then "✨" else jsTrim draft.emoji
      color := color
      goalPerWeek := if draft.goalPerWeek < 1 then 1 else draft.goalPerWeek
      reminders := if draft.reminderTime = "" then [] else [draft.reminderTime]
      completions := []
      createdAt := createdAt } :: habits

/-- `handleAddReminder(habitId, time)`: no-op on an empty time, otherwise
`Array.from(new Set([...reminders, time])).sort()` on the target habit. -/
def handleAddReminder (habits : List Habit) (habitId time : String) : List Habit :=
  if time = "" then habits
  else
    habits.map fun habit =>
      if habit.id ≠ habitId then habit
      else
        { habit with
            reminders := List.insertionSort (· ≤ ·) (jsDedup (habit.reminders ++ [time])) }

/-- `handleRemoveReminder(habitId, time)`: filter `time` out of the target
habit's reminders. -/
def handleRemoveReminder (habits : List Habit) (habitId time : String) : List Habit :=
  habits.map fun habit =>
    if habit.id ≠ habitId then habit
    else { habit with reminders := habit.reminders.filter (fun rem => rem ≠ time) }

/-- `handleDeleteHabit(habitId)`: drop every habit with that id.  (The
accompanying clearing of the UI selection is outside the model.) -/
def handleDeleteHabit (habits : List Habit) (habitId : String) : List Habit :=
  habits.filter (fun habit => habit.id ≠ habitId)

/-- The `while (true)` loop of `computeStreak`: while the current day's key
is in the completion set, count it and step one day back.  The source loop
terminates because each successful iteration consumes a distinct member of
the (finite) completion set, so it runs at most `completions.length`
successful iterations; fuel `completions.length + 1` therefore never
truncates it (see `streakLoop_le_length`). -/
def streakLoop (completions : List Int) (day : Int) : Nat → Nat
  | 0 => 0
  | fuel + 1 =>
    if day ∈ completions then streakLoop completions (day - 1) fuel + 1 else 0

/-- `computeStreak(habit)`: length of the unbroken run of completed days
ending at the current day.  (`new Set(habit.completions)` is used in the
source only for membership tests, which agree with list membership.) -/
def computeStreak (habit : Habit) (now : Moment) : Nat :=
  streakLoop habit.completions (getDateKey now) (habit.completions.length + 1)

/-- The loop of `getLongestStreak`, walking the descending-sorted completion
list: on the first element start a run of 1; afterwards extend the run when
the element equals the previous element minus one day, else restart at 1;
track the maximum.  (The source recovers "previous minus one day" by
parsing the previous date string and calling `setDate(getDate() - 1)`;
in the epoch-day model this is `previous - 1`, timezone-free.) -/
def longestAux : List Int → Option Int → Nat → Nat → Nat
  | [], _, _, longest => longest
  | date :: rest, none, _, longest => longestAux rest (some date) 1 (max longest 1)
  | date :: rest, some prev, current, longest =>
    if date = prev - 1 then
      longestAux rest (some date) (current + 1) (max longest (current + 1))
    else
      longestAux rest (some date) 1 (max longest 1)

/-- `getLongestStreak(habit)`: maximum consecutive-day run length over
`[...completions].sort().reverse()`. -/
def getLongestStreak (habit : Habit) : Nat :=
  longestAux ((List.insertionSort (· ≤ ·) habit.completions).reverse) none 0 0

/-- The reminder evaluator's dedup cache (`reminderCacheRef`): the date it
was built for plus the set of fired keys.  A key is the composite
`(habit.id, time, dateKey)` that the source encodes as the string
`` `${habit.id}-${time}-${dateKey}` ``. -/
structure ReminderCache where
  date : Int
  keys : List (String × String × Int)
deriving DecidableEq, Repr

/-- The range guard of `tick` applied to the first two coerced components
(`Number.isNaN` checks plus hour in 0–23 and minute in 0–59), returning the
pair exactly when the entry can fire. -/
def clockOfNums : Option Int → Option Int → Option (Int × Int)
  | some hour, some minute =>
    if 0 ≤ hour ∧ hour ≤ 23 ∧ 0 ≤ minute ∧ minute ≤ 59 then some (hour, minute)
    else none
  | _, _ => none

/-- `const [hour, minute] = time.split(":").map(Number)` followed by the
guard: coerce the first two split components and validate them.  A split
with fewer than two components yields `none`: either the guard rejects it
(`NaN` hour) or the guard passes with an `undefined` minute whose `NaN`
arithmetic makes `delta <= 30` false — both observationally identical to a
skip (no fire, no cache write). -/
def clockFromParts : List (List Char) → Option (Int × Int)
  | h :: m :: _ => clockOfNums (jsNumber h) (jsNumber m)
  | _ => none

/-- The per-reminder parsing-and-validation step of `tick`. -/
def parseClock (time : String) : Option (Int × Int) :=
  clockFromParts (splitOnChar ':' time.data)

/-- `now.getTime()`, modelled from the moment's components (milliseconds;
the local-timezone offset the source's epoch value carries is constant and
outside the model). -/
def Moment.epochMillis (m : Moment) : Int :=
  (m.day * 86400 + (m.hour * 3600 + m.minute * 60 + m.second : Nat)) * 1000

/-- `nowSeconds` in `tick`: `now.getHours()*3600 + now.getMinutes()*60 +
now.getSeconds()`. -/
def Moment.nowSeconds (now : Moment) : Int :=
  (now.hour : Int) * 3600 + (now.minute : Int) * 60 + (now.second : Int)

/-- The firing decision of `tick` for one entry, given the parsed clock:
fire when the target is within 30 seconds of `now` and the composite key is
not yet cached; firing records the key and appends an alert. -/
def tickReminderFire (now : Moment) (habit : Habit)
    (acc : ReminderCache × List ReminderAlert) (time : String) :
    Option (Int × Int) → ReminderCache × List ReminderAlert
  | none => acc
  | some (hour, minute) =>
    let targetSeconds := hour * 3600 + minute * 60
    let delta := (now.nowSeconds - targetSeconds).natAbs
    let cacheKey := (habit.id, time, getDateKey now)
    if delta ≤ 30 ∧ cacheKey ∉ acc.1.keys then
      (⟨acc.1.date, cacheKey :: acc.1.keys⟩,
        acc.2 ++ [{ habitId := habit.id, habitName := habit.name, time := time,
                    timestamp := now.epochMillis }])
    else acc

/-- The body of `tick`'s inner `forEach`, for one reminder entry of one
habit: parse and validate the time, then decide whether it fires. -/
def tickReminderStep (now : Moment) (habit : Habit)
    (acc : ReminderCache × List ReminderAlert) (time : String) :
    ReminderCache × List ReminderAlert :=
  tickReminderFire now habit acc time (parseClock time)

/-- One evaluator pass (`tick`): roll the cache over when the date changed,
then scan every habit's reminder entries in order, firing via
`tickReminderStep`.  Returns the updated cache and this tick's newly
emitted alerts. -/
def tick (cache : ReminderCache) (now : Moment) (habits : List Habit) :
    ReminderCache × List ReminderAlert :=
  let dateKey := getDateKey now
  let cache0 := if cache.date ≠ dateKey then ⟨dateKey, []⟩ else cache
  habits.foldl
    (fun acc habit => habit.reminders.foldl (tickReminderStep now habit) acc)
    (cache0, ([] : List ReminderAlert))

/-- A JSON value, for the storage boundary (`JSON.parse` output). -/
inductive Json where
  | null : Json
  | bool (b : Bool) : Json
  | num (n : Int) : Json
  | str (s : String) : Json
  | arr (elems : List Json) : Json
  | obj (fields : List (String × Json)) : Json

/-- The state of the persisted blob when `loadHabitsFromStorage` runs:
no `window` (server render), no stored value (or an empty string, which is
falsy), a stored string `JSON.parse` throws on, or a successfully parsed
JSON value. -/
inductive StorageState where
  | noWindow : StorageState
  | absent : StorageState
  | unparsable : StorageState
  | parsed (v : Json) : StorageState

/-- What `loadHabitsFromStorage` returns: either the seed dataset or the
parsed JSON value passed through verbatim (the source casts it to `Habit[]`
without any validation). -/
inductive LoadResult where
  | seeded (habits : List Habit) : LoadResult
  | fromStorage (v : Json) : LoadResult

/-- The `DEFAULT_HABITS` constant (creation timestamps injected). -/
def DEFAULT_HABITS (createdAt : String) : List Habit :=
  [ { id := "habit-1", name := "Morning Run", emoji := "🏃‍♀️",
      color := "from-violet-500 to-fuchsia-500", goalPerWeek := 5,
      reminders := ["06:30"], completions := [], createdAt := createdAt },
    { id := "habit-2", name := "Mindful Break", emoji := "🧘",
      color := "from-emerald-500 to-teal-400", goalPerWeek := 7,
      reminders := ["12:00", "20:00"], completions := [], createdAt := createdAt } ]

/-- `buildDefaultHabits()`: the seed dataset — `DEFAULT_HABITS` with the
first habit completed today and fresh creation timestamps. -/
def buildDefaultHabits (today : Int) (createdAt : String) : List Habit :=
  (DEFAULT_HABITS createdAt).mapIdx fun index habit =>
    { habit with completions := if index = 0 then [today] else [], createdAt := createdAt }

/-- `loadHabitsFromStorage()`: return the stored value verbatim when it
parses; fall back to the seed dataset when there is no `window`, no stored
blob, or `JSON.parse` throws. -/
def loadHabitsFromStorage (stored : StorageState) (today : Int) (createdAt : String) :
    LoadResult :=
  match stored with
  | .noWindow => .seeded (buildDefaultHabits today createdAt)
  | .absent => .seeded (buildDefaultHabits today createdAt)
  | .unparsable => .seeded (buildDefaultHabits today createdAt)
  | .parsed v => .fromStorage v

/-- Modelled from the spec (§6 external interfaces): the persisted schema of
one habit — an object with string `id`/`name`/`emoji`/`color`/`createdAt`,
integer `goalPerWeek`, and string arrays `reminders`/`completions`.  The
source performs no such validation; this definition only gives the claim
about "a valid habit collection" a precise reading. -/
def isValidHabitJson (v : Json) : Bool :=
  match v with
  | .obj fields =>
    (fields.lookup "id").elim false (fun f => match f with | .str _ => true | _ => false) &&
    (fields.lookup "name").elim false (fun f => match f with | .str _ => true | _ => false) &&
    (fields.lookup "emoji").elim false (fun f => match f with | .str _ => true | _ => false) &&
    (fields.lookup "color").elim false (fun f => match f with | .str _ => true | _ => false) &&
    (fields.lookup "goalPerWeek").elim false (fun f => match f with | .num _ => true | _ => false) &&
    (fields.lookup "reminders").elim false
      (fun f => match f with
        | .arr xs => xs.all (fun x => match x with | .str _ => true | _ => false)
        | _ => false) &&
    (fields.lookup "completions").elim false
      (fun f => match f with
        | .arr xs => xs.all (fun x => match x with | .str _ => true | _ => false)
        | _ => false) &&
    (fields.lookup "createdAt").elim false (fun f => match f with | .str _ => true | _ => false)
  | _ => false

/-- Modelled from the spec (§6): a valid persisted habit collection is a
JSON array of valid habit objects. -/
def isValidHabitCollectionJson (v : Json) : Bool :=
  match v with
  | .arr habits => habits.all isValidHabitJson
  | _ => false

/-- A descending run of `k` consecutive day identifiers starting at `a`:
`[a, a-1, …, a-k+1]`.  Used to reason about `getLongestStreak`'s walk. -/
def descRun (a : Int) : Nat → List Int
  | 0 => []
  | k + 1 => a :: descRun (a - 1) k

/-- A concrete habit used to instantiate proved theorems. -/
def exHabitA : Habit :=
  { id := "h1", name := "Read", emoji := "📚", color := "from-sky-500 to-cyan-400",
    goalPerWeek := 3, reminders := ["08:00"], completions := [1, 3], createdAt := "t1" }

/-- A second concrete habit used to instantiate proved theorems. -/
def exHabitB : Habit :=
  { id := "h2", name := "Run", emoji := "🏃", color := "from-purple-500 to-indigo-500",
    goalPerWeek := 5, reminders := ["07:00", "19:30"], completions := [2, 3, 4],
    createdAt := "t2" }

/-- A concrete two-habit collection used to instantiate proved theorems. -/
def exHabits : List Habit := [exHabitA, exHabitB]

/-- The habit of the reminder-dedup scenario: one `"07:00"` reminder. -/
def dedupHabit : Habit :=
  { id := "habit-1", name := "Morning Run", emoji := "🏃", color := "c",
    goalPerWeek := 5, reminders := ["07:00"], completions := [], createdAt := "t" }

/-- Dedup scenario, tick 1: 07:00:00 on day 20000, cache fresh for that day
(as the evaluator initializes it). -/
def dedupTick1 : ReminderCache × List ReminderAlert :=
  tick ⟨20000, []⟩ ⟨20000, 7, 0, 0⟩ [dedupHabit]

/-- Dedup scenario, tick 2: 07:00:15 the same day, cache threaded on. -/
def dedupTick2 : ReminderCache × List ReminderAlert :=
  tick dedupTick1.1 ⟨20000, 7, 0, 15⟩ [dedupHabit]

/-- Dedup scenario, tick 3: 07:00:29 the same day. -/
def dedupTick3 : ReminderCache × List ReminderAlert :=
  tick dedupTick2.1 ⟨20000, 7, 0, 29⟩ [dedupHabit]

/-- Dedup scenario, tick 4: 07:00:31 the same day (outside the window). -/
def dedupTick4 : ReminderCache × List ReminderAlert :=
  tick dedupTick3.1 ⟨20000, 7, 0, 31⟩ [dedupHabit]

/-- Dedup scenario, tick 5: 07:00:00 the next calendar day (rollover). -/
def dedupTick5 : ReminderCache × List ReminderAlert :=
  tick dedupTick4.1 ⟨20001, 7, 0, 0⟩ [dedupHabit]

/-- The data-model invariant on one side of a habit: the list is strictly
sorted, i.e. kept in sorted order and duplicate-free. -/
abbrev CompletionsInvariant (habits : List Habit) : Prop :=
  ∀ h ∈ habits, List.Sorted (· < ·) h.completions

/-- Reminders lists are strictly sorted (sorted and duplicate-free). -/
abbrev RemindersInvariant (habits : List Habit) : Prop :=
  ∀ h ∈ habits, List.Sorted (· < ·) h.reminders

/-- The full Habit Store invariant: every habit's completions and reminders
are sorted and duplicate-free. -/
abbrev StoreInvariant (habits : List Habit) : Prop :=
  CompletionsInvariant habits ∧ RemindersInvariant habits

section JsLemmas

variable {α : Type} [DecidableEq α]

theorem jsDedupAux_mem {a : α} : ∀ {l seen : List α},
    a ∈ jsDedupAux l seen ↔ a ∈ l ∧ a ∉ seen := by
  intro l
  induction l with
  | nil => intro seen; simp [jsDedupAux]
  | cons x xs ih =>
    intro seen
    by_cases hx : x ∈ seen
    · rw [jsDedupAux, if_pos hx, ih]
      constructor
      · exact fun ⟨h1, h2⟩ => ⟨List.mem_cons_of_mem _ h1, h2⟩
      · rintro ⟨h1, h2⟩
        rcases List.mem_cons.mp h1 with rfl | h1'
        · exact absurd hx h2
        · exact ⟨h1', h2⟩
    · rw [jsDedupAux, if_neg hx]
      constructor
      · intro hmem
        rcases List.mem_cons.mp hmem with rfl | h1
        · exact ⟨List.mem_cons_self _ _, hx⟩
        · obtain ⟨h2, h3⟩ := ih.mp h1
          exact ⟨List.mem_cons_of_mem _ h2, fun hs => h3 (List.mem_cons_of_mem _ hs)⟩
      · rintro ⟨h1, h2⟩
        rcases List.mem_cons.mp h1 with rfl | h1'
        · exact List.mem_cons_self _ _
        · by_cases hax : a = x
          · exact hax ▸ List.mem_cons_self _ _
          · exact List.mem_cons_of_mem _
              (ih.mpr ⟨h1', fun hs => (List.mem_cons.mp hs).elim hax h2⟩)

theorem jsDedupAux_nodup : ∀ (l seen : List α), (jsDedupAux l seen).Nodup := by
  intro l
  induction l with
  | nil => intro seen; simp [jsDedupAux]
  | cons x xs ih =>
    intro seen
    by_cases hx : x ∈ seen
    · rw [jsDedupAux, if_pos hx]; exact ih seen
    · rw [jsDedupAux, if_neg hx]
      refine List.nodup_cons.mpr ⟨?_, ih (x :: seen)⟩
      intro hmem
      exact (jsDedupAux_mem.mp hmem).2 (List.mem_cons_self x seen)

theorem jsDedup_mem {a : α} {l : List α} : a ∈ jsDedup l ↔ a ∈ l := by
  simp [jsDedup, jsDedupAux_mem]

theorem jsDedup_nodup (l : List α) : (jsDedup l).Nodup :=
  jsDedupAux_nodup l []

theorem jsDedupAux_eq_self : ∀ {l seen : List α}, l.Nodup →
    (∀ x ∈ l, x ∉ seen) → jsDedupAux l seen = l := by
  intro l
  induction l with
  | nil => intro seen _ _; rfl
  | cons x xs ih =>
    intro seen hnd hdisj
    have hx : x ∉ seen := hdisj x (List.mem_cons_self x xs)
    rw [jsDedupAux, if_neg hx]
    refine congrArg (x :: ·) (ih (List.nodup_cons.mp hnd).2 ?_)
    intro y hy
    simp only [List.mem_cons]
    rintro (rfl | hys)
    · exact (List.nodup_cons.mp hnd).1 hy
    · exact hdisj y (List.mem_cons_of_mem _ hy) hys

theorem jsDedup_eq_self {l : List α} (h : l.Nodup) : jsDedup l = l :=
  jsDedupAux_eq_self h (by simp)

end JsLemmas

section SortLemmas

variable {α : Type} [LinearOrder α]

theorem sorted_lt_of_sorted_le_nodup {l : List α}
    (hs : List.Sorted (· ≤ ·) l) (hn : l.Nodup) : List.Sorted (· < ·) l :=
  List.Pairwise.imp₂ (fun _ _ h1 h2 => lt_of_le_of_ne h1 h2) hs hn

theorem sorted_le_of_sorted_lt {l : List α}
    (hs : List.Sorted (· < ·) l) : List.Sorted (· ≤ ·) l :=
  hs.imp le_of_lt

/-- `insertionSort` of a duplicate-free list is strictly sorted. -/
theorem sorted_lt_insertionSort {l : List α} (h : l.Nodup) :
    List.Sorted (· < ·) (List.insertionSort (· ≤ ·) l) :=
  sorted_lt_of_sorted_le_nodup (List.sorted_insertionSort _ l)
    ((List.perm_insertionSort (· ≤ ·) l).nodup_iff.mpr h)

end SortLemmas

section ToggleLemmas

theorem cons_filter_ne_perm : ∀ {cs : List Int}, cs.Nodup → ∀ {k : Int}, k ∈ cs →
    (k :: cs.filter (fun d => d ≠ k)).Perm cs := by
  intro cs
  induction cs with
  | nil => intro _ k hk; cases hk
  | cons x xs ih =>
    intro hnd k hk
    obtain ⟨hxnotin, hndxs⟩ := List.nodup_cons.mp hnd
    rcases List.mem_cons.mp hk with rfl | hk'
    · have h1 : List.filter (fun d => decide (d ≠ k)) (k :: xs) = xs := by
        rw [List.filter_cons_of_neg (by simp)]
        refine List.filter_eq_self.mpr fun a ha => ?_
        simp only [decide_eq_true_eq]
        exact fun h => hxnotin (h ▸ ha)
      rw [h1]
    · have hkx : k ≠ x := fun h => hxnotin (h ▸ hk')
      rw [List.filter_cons_of_pos (by simpa using hkx.symm)]
      exact (List.Perm.swap x k _).trans ((ih hndxs hk').cons x)

theorem toggledCompletions_of_mem {cs : List Int} (h : List.Sorted (· < ·) cs)
    {k : Int} (hk : k ∈ cs) :
    toggledCompletions cs k = cs.filter (fun d => d ≠ k) := by
  simp only [toggledCompletions, jsDedup_eq_self h.nodup]
  rw [if_pos hk]
  exact List.Sorted.insertionSort_eq ((h.filter _).imp fun hab => le_of_lt hab)

theorem toggledCompletions_of_not_mem {cs : List Int} (h : List.Sorted (· < ·) cs)
    {k : Int} (hk : k ∉ cs) :
    toggledCompletions cs k = List.insertionSort (· ≤ ·) (cs ++ [k]) := by
  simp only [toggledCompletions, jsDedup_eq_self h.nodup]
  rw [if_neg hk]

theorem toggledCompletions_involutive {cs : List Int} (h : List.Sorted (· < ·) cs)
    (k : Int) : toggledCompletions (toggledCompletions cs k) k = cs := by
  by_cases hk : k ∈ cs
  · rw [toggledCompletions_of_mem h hk]
    have hFs : List.Sorted (· < ·) (cs.filter (fun d => d ≠ k)) := h.filter _
    have hkF : k ∉ cs.filter (fun d => d ≠ k) := by simp [List.mem_filter]
    rw [toggledCompletions_of_not_mem hFs hkF]
    refine List.eq_of_perm_of_sorted ?_ (List.sorted_insertionSort _ _)
      (sorted_le_of_sorted_lt h)
    exact (List.perm_insertionSort _ _).trans
      ((List.perm_append_singleton _ _).trans (cons_filter_ne_perm h.nodup hk))
  · rw [toggledCompletions_of_not_mem h hk]
    have hndapp : (cs ++ [k]).Nodup := by
      simp [List.nodup_append, h.nodup, hk]
    have hSsorted : List.Sorted (· < ·) (List.insertionSort (· ≤ ·) (cs ++ [k])) :=
      sorted_lt_insertionSort hndapp
    have hperm : (List.insertionSort (· ≤ ·) (cs ++ [k])).Perm (cs ++ [k]) :=
      List.perm_insertionSort _ _
    have hkS : k ∈ List.insertionSort (· ≤ ·) (cs ++ [k]) :=
      hperm.mem_iff.mpr (by simp)
    rw [toggledCompletions_of_mem hSsorted hkS]
    refine List.eq_of_perm_of_sorted ?_
      (sorted_le_of_sorted_lt (hSsorted.filter _)) (sorted_le_of_sorted_lt h)
    have h2 : ((cs ++ [k]).filter (fun d => d ≠ k)) = cs := by
      rw [List.filter_append]
      have h3 : List.filter (fun d => decide (d ≠ k)) [k] = [] := by simp
      have h4 : List.filter (fun d => decide (d ≠ k)) cs = cs :=
        List.filter_eq_self.mpr fun a ha => by
          simp only [decide_eq_true_eq]
          exact fun hak => hk (hak ▸ ha)
      rw [h3, h4, List.append_nil]
    have h5 := hperm.filter (fun d => decide (d ≠ k))
    rw [h2] at h5
    exact h5

end ToggleLemmas

section StreakLemmas

theorem streakLoop_eq_zero {cs : List Int} {d : Int} (h : d ∉ cs) (fuel : Nat) :
    streakLoop cs d (fuel + 1) = 0 := by
  simp [streakLoop, h]

theorem streakLoop_exact {cs : List Int} : ∀ (k : Nat) (d : Int) (fuel : Nat), k < fuel →
    (∀ i : Nat, i < k → d - (i : Int) ∈ cs) → d - (k : Int) ∉ cs →
    streakLoop cs d fuel = k := by
  intro k
  induction k with
  | zero =>
    intro d fuel hf _ hnot
    match fuel, hf with
    | fuel + 1, _ =>
      have hd : d ∉ cs := by simpa using hnot
      simp [streakLoop, hd]
  | succ k ih =>
    intro d fuel hf hmem hnot
    match fuel, hf with
    | fuel + 1, hf =>
      have hd : d ∈ cs := by simpa using hmem 0 (Nat.succ_pos k)
      rw [streakLoop, if_pos hd]
      have hrec : streakLoop cs (d - 1) fuel = k := by
        refine ih (d - 1) fuel (by omega) ?_ ?_
        · intro i hi
          have h1 := hmem (i + 1) (by omega)
          have h2 : d - ((i + 1 : Nat) : Int) = d - 1 - (i : Int) := by push_cast; ring
          rw [h2] at h1
          exact h1
        · intro hcon
          apply hnot
          have h3 : d - ((k + 1 : Nat) : Int) = d - 1 - (k : Int) := by push_cast; ring
          rw [h3]
          exact hcon
      rw [hrec]

theorem streakLoop_mem {cs : List Int} : ∀ (fuel : Nat) (d : Int) (i : Nat),
    i < streakLoop cs d fuel → d - (i : Int) ∈ cs := by
  intro fuel
  induction fuel with
  | zero => intro d i h; simp [streakLoop] at h
  | succ fuel ih =>
    intro d i h
    rw [streakLoop] at h
    by_cases hd : d ∈ cs
    · rw [if_pos hd] at h
      cases i with
      | zero => simpa using hd
      | succ i =>
        have h1 := ih (d - 1) i (by omega)
        have h2 : d - ((i + 1 : Nat) : Int) = d - 1 - (i : Int) := by push_cast; ring
        rw [h2]
        exact h1
    · rw [if_neg hd] at h
      omega

end StreakLemmas

section StoreOpLemmas

theorem storeInvariant_exHabits : StoreInvariant exHabits := by
  constructor
  · intro h hm
    rcases List.mem_cons.mp hm with rfl | hm'
    · decide
    · rcases List.mem_cons.mp hm' with rfl | hm''
      · decide
      · cases hm''
  · intro h hm
    rcases List.mem_cons.mp hm with rfl | hm'
    · exact List.sorted_singleton _
    · rcases List.mem_cons.mp hm' with rfl | hm''
      · show List.Sorted (· < ·) ["07:00", "19:30"]
        refine List.sorted_cons.mpr ⟨?_, List.sorted_singleton _⟩
        intro b hb
        rcases List.mem_singleton.mp hb with rfl
        rw [String.lt_iff_toList_lt]
        decide
      · cases hm''

theorem toggledCompletions_sorted (cs : List Int) (k : Int) :
    List.Sorted (· < ·) (toggledCompletions cs k) := by
  simp only [toggledCompletions]
  apply sorted_lt_insertionSort
  split
  · exact (jsDedup_nodup cs).filter _
  · next hk =>
    simp [List.nodup_append, jsDedup_nodup cs, hk]

end StoreOpLemmas

section LongestStreakLemmas

theorem longestAux_ge : ∀ (l : List Int) (prev : Option Int) (cur lng : Nat),
    lng ≤ longestAux l prev cur lng := by
  intro l
  induction l with
  | nil => intro prev cur lng; simp [longestAux]
  | cons d rest ih =>
    intro prev cur lng
    cases prev with
    | none => exact le_trans (le_max_left lng 1) (ih _ _ _)
    | some p =>
      by_cases hd : d = p - 1
      · rw [longestAux, if_pos hd]
        exact le_trans (le_max_left _ _) (ih _ _ _)
      · rw [longestAux, if_neg hd]
        exact le_trans (le_max_left _ _) (ih _ _ _)

theorem longestAux_run : ∀ (k : Nat) (a : Int) (rest : List Int) (cur lng : Nat),
    cur ≤ lng → cur + k ≤ longestAux (descRun a k ++ rest) (some (a + 1)) cur lng := by
  intro k
  induction k with
  | zero =>
    intro a rest cur lng hcl
    simpa [descRun] using le_trans hcl (longestAux_ge rest (some (a + 1)) cur lng)
  | succ k ih =>
    intro a rest cur lng hcl
    simp only [descRun, List.cons_append, longestAux]
    rw [if_pos (by ring)]
    simp only [List.append_eq]
    have h1 := ih (a - 1) rest (cur + 1) (max lng (cur + 1)) (le_max_right _ _)
    rw [show (a - 1) + 1 = a by ring] at h1
    omega

theorem longestAux_run_anywhere (k : Nat) (hk : 0 < k) :
    ∀ (pre : List Int) (a : Int) (rest : List Int) (prev : Option Int) (cur lng : Nat),
      cur ≤ lng → k ≤ longestAux (pre ++ (descRun a k ++ rest)) prev cur lng := by
  intro pre
  induction pre with
  | nil =>
    intro a rest prev cur lng hcl
    obtain ⟨k', rfl⟩ : ∃ k', k = k' + 1 := ⟨k - 1, by omega⟩
    simp only [descRun, List.nil_append, List.cons_append]
    cases prev with
    | none =>
      rw [longestAux]
      have h1 := longestAux_run k' (a - 1) rest 1 (max lng 1) (le_max_right _ _)
      rw [show (a - 1) + 1 = a by ring] at h1
      omega
    | some p =>
      by_cases hd : a = p - 1
      · rw [longestAux, if_pos hd]
        have h1 := longestAux_run k' (a - 1) rest (cur + 1) (max lng (cur + 1))
          (le_max_right _ _)
        rw [show (a - 1) + 1 = a by ring] at h1
        omega
      · rw [longestAux, if_neg hd]
        have h1 := longestAux_run k' (a - 1) rest 1 (max lng 1) (le_max_right _ _)
        rw [show (a - 1) + 1 = a by ring] at h1
        omega
  | cons x pre ih =>
    intro a rest prev cur lng hcl
    simp only [List.cons_append]
    cases prev with
    | none =>
      rw [longestAux]
      exact ih a rest (some x) 1 (max lng 1) (le_max_right _ _)
    | some p =>
      by_cases hd : x = p - 1
      · rw [longestAux, if_pos hd]
        exact ih a rest (some x) (cur + 1) (max lng (cur + 1)) (le_max_right _ _)
      · rw [longestAux, if_neg hd]
        exact ih a rest (some x) 1 (max lng 1) (le_max_right _ _)

theorem sorted_gt_run_from_head : ∀ (k : Nat) (a : Int) (l : List Int),
    List.Sorted (· > ·) l → (∀ y ∈ l, y < a + 1) →
    (∀ i : Nat, i < k → a - (i : Int) ∈ l) →
    ∃ suf, l = descRun a k ++ suf := by
  intro k
  induction k with
  | zero => intro a l _ _ _; exact ⟨l, by simp [descRun]⟩
  | succ k ih =>
    intro a l hsort hbound hmem
    have ha : a ∈ l := by simpa using hmem 0 (Nat.succ_pos _)
    rcases l with _ | ⟨y, t⟩
    · simp at ha
    · have hya : y = a := by
        rcases List.mem_cons.mp ha with h | h
        · exact h.symm
        · have h1 : y > a := (List.sorted_cons.mp hsort).1 a h
          have h2 : y < a + 1 := hbound y (List.mem_cons_self _ _)
          omega
      subst hya
      have hsort' : List.Sorted (· > ·) t := (List.sorted_cons.mp hsort).2
      have hbound' : ∀ z ∈ t, z < (y - 1) + 1 := by
        intro z hz
        have := (List.sorted_cons.mp hsort).1 z hz
        omega
      have hmem' : ∀ i : Nat, i < k → (y - 1) - (i : Int) ∈ t := by
        intro i hi
        have h1 := hmem (i + 1) (by omega)
        have h2 : y - ((i + 1 : Nat) : Int) = (y - 1) - (i : Int) := by push_cast; ring
        rw [h2] at h1
        rcases List.mem_cons.mp h1 with h | h
        · exfalso; omega
        · exact h
      obtain ⟨suf, hsuf⟩ := ih (y - 1) t hsort' hbound' hmem'
      exact ⟨suf, by simp [descRun, hsuf]⟩

theorem sorted_gt_run_decomp : ∀ (l : List Int), List.Sorted (· > ·) l →
    ∀ (k : Nat) (a : Int), 0 < k → (∀ i : Nat, i < k → a - (i : Int) ∈ l) →
    ∃ pre suf, l = pre ++ (descRun a k ++ suf) := by
  intro l
  induction l with
  | nil =>
    intro _ k a hk hmem
    exfalso
    simpa using hmem 0 hk
  | cons x t ih =>
    intro hsort k a hk hmem
    by_cases hxa : a < x
    · have hmem' : ∀ i : Nat, i < k → a - (i : Int) ∈ t := by
        intro i hi
        rcases List.mem_cons.mp (hmem i hi) with h | h
        · exfalso; omega
        · exact h
      obtain ⟨pre, suf, hps⟩ := ih (List.sorted_cons.mp hsort).2 k a hk hmem'
      exact ⟨x :: pre, suf, by simp [hps]⟩
    · have hbound : ∀ y ∈ x :: t, y < a + 1 := by
        intro y hy
        rcases List.mem_cons.mp hy with rfl | hy'
        · omega
        · have := (List.sorted_cons.mp hsort).1 y hy'
          omega
      obtain ⟨suf, hsuf⟩ := sorted_gt_run_from_head k a (x :: t) hsort hbound hmem
      exact ⟨[], suf, by simp [hsuf]⟩

theorem sorted_gt_sortedDesc {cs : List Int} (h : cs.Nodup) :
    List.Sorted (· > ·) ((List.insertionSort (· ≤ ·) cs).reverse) :=
  List.pairwise_reverse.mpr (sorted_lt_insertionSort h)

end LongestStreakLemmas

/-- Claim C1: reminder deduplication per calendar day.  For a habit with
reminder `"07:00"`, ticking at 07:00:00, 07:00:15 and 07:00:29 on the same
day emits exactly one alert in total, on the first tick; a tick at 07:00:31
emits none; and a tick at 07:00:00 the next calendar day emits exactly one
new alert, because the cache is reset when the date identifier changes. -/
theorem reminder_dedup_per_calendar_day :
    dedupTick1.2.length = 1 ∧ dedupTick2.2 = [] ∧ dedupTick3.2 = [] ∧
      dedupTick4.2 = [] ∧ dedupTick5.2.length = 1 := by
  decide

/-- Claim C3: `toggleCompletion` is an involution.  On a collection whose
completions lists are sorted and duplicate-free, toggling the same
`(habitId, dateKey)` twice returns the original collection (in particular
every habit's completions set is restored). -/
theorem handleToggleCompletion_involutive (habits : List Habit)
    (hInv : CompletionsInvariant habits) (habitId : String) (dateKey : Int) :
    handleToggleCompletion (handleToggleCompletion habits habitId dateKey) habitId dateKey
      = habits := by
  unfold handleToggleCompletion
  rw [List.map_map]
  refine (List.map_congr_left ?_).trans (List.map_id habits)
  intro habit hmem
  by_cases hid : habit.id ≠ habitId
  · show (fun h => if h.id ≠ habitId then h
      else { h with completions := toggledCompletions h.completions dateKey })
        (if habit.id ≠ habitId then habit
          else { habit with completions := toggledCompletions habit.completions dateKey })
      = habit
    rw [if_pos hid]
    simp only
    rw [if_pos hid]
  · show (fun h => if h.id ≠ habitId then h
      else { h with completions := toggledCompletions h.completions dateKey })
        (if habit.id ≠ habitId then habit
          else { habit with completions := toggledCompletions habit.completions dateKey })
      = habit
    rw [if_neg hid]
    simp only
    rw [if_neg hid]
    rw [toggledCompletions_involutive (hInv habit hmem) dateKey]

/-- Witness for C3: the involution theorem applied to a concrete collection
satisfying the invariant. -/
theorem handleToggleCompletion_involutive_witness :
    CompletionsInvariant exHabits ∧
      handleToggleCompletion (handleToggleCompletion exHabits "h1" 2) "h1" 2 = exHabits :=
  ⟨by decide, handleToggleCompletion_involutive exHabits (by decide) "h1" 2⟩

/-- Claim C9: `recentDays(7)` (`getLastSevenDays`) always returns exactly 7
pairwise-distinct date identifiers, each consecutive pair one calendar day
apart in ascending order (hence oldest first), ending at the current date
identifier. -/
theorem getLastSevenDays_seven_consecutive (now : Moment) :
    (getLastSevenDays now).length = 7 ∧ (getLastSevenDays now).Nodup ∧
      List.Chain' (fun a b => b = a + 1) (getLastSevenDays now) ∧
      (getLastSevenDays now).getLast? = some (getDateKey now) := by
  have h : getLastSevenDays now =
      [now.day - 6, now.day - 5, now.day - 4, now.day - 3, now.day - 2,
        now.day - 1, now.day] := by
    show getLastSevenDaysAux 7 now [] = _
    simp only [getLastSevenDaysAux, Moment.prevDay, getDateKey, List.cons.injEq, and_true]
    omega
  rw [h]
  refine ⟨rfl, ?_, ?_, ?_⟩
  · simp only [List.nodup_cons, List.mem_cons, List.not_mem_nil, List.nodup_nil,
      and_true, not_or, or_false]
    norm_num
  · simp only [List.chain'_cons, List.chain'_singleton, and_true]
    omega
  · simp [getDateKey]

/-- Claim C7 (amended): `loadHabitsFromStorage` substitutes the seed
dataset exactly when there is no window, no stored blob, or the blob fails
to parse as JSON; a blob that parses as any JSON value is returned
verbatim, with no validation it is a habit collection. -/
theorem loadHabitsFromStorage_fallback (today : Int) (createdAt : String) :
    loadHabitsFromStorage .noWindow today createdAt
        = .seeded (buildDefaultHabits today createdAt) ∧
      loadHabitsFromStorage .absent today createdAt
        = .seeded (buildDefaultHabits today createdAt) ∧
      loadHabitsFromStorage .unparsable today createdAt
        = .seeded (buildDefaultHabits today createdAt) ∧
      ∀ v : Json, loadHabitsFromStorage (.parsed v) today createdAt = .fromStorage v :=
  ⟨rfl, rfl, rfl, fun _ => rfl⟩

/-- Counterexample to C7 as stated: the stored JSON value `5` parses but is
not a valid habit collection, yet `loadHabitsFromStorage` returns it
verbatim instead of the seed dataset. -/
theorem loadHabitsFromStorage_no_validation :
    isValidHabitCollectionJson (Json.num 5) = false ∧
      loadHabitsFromStorage (.parsed (Json.num 5)) 20000 "2024-01-01T00:00:00.000Z"
        = .fromStorage (Json.num 5) ∧
      loadHabitsFromStorage (.parsed (Json.num 5)) 20000 "2024-01-01T00:00:00.000Z"
        ≠ .seeded (buildDefaultHabits 20000 "2024-01-01T00:00:00.000Z") :=
  ⟨rfl, rfl, fun h => nomatch h⟩

/-- Claim C6: `addHabit` rejects drafts whose name trims to empty, leaving
the collection unchanged; otherwise it prepends a habit with the trimmed
name, `goalPerWeek` clamped to a minimum of 1, empty completions, and a
single-element reminder list exactly when a reminder time was supplied. -/
theorem handleAddHabit_spec (habits : List Habit) (draft : HabitDraft)
    (freshId color createdAt : String) :
    (jsTrim draft.name = "" → handleAddHabit habits draft freshId color createdAt = habits) ∧
      (jsTrim draft.name ≠ "" → ∃ h : Habit,
        handleAddHabit habits draft freshId color createdAt = h :: habits ∧
          h.name = jsTrim draft.name ∧
          h.goalPerWeek = max 1 draft.goalPerWeek ∧
          h.completions = [] ∧
          h.reminders = if draft.reminderTime = "" then [] else [draft.reminderTime]) := by
  constructor
  · intro hname
    unfold handleAddHabit
    rw [if_pos hname]
  · intro hname
    unfold handleAddHabit
    rw [if_neg hname]
    refine ⟨_, rfl, rfl, ?_, rfl, rfl⟩
    show (if draft.goalPerWeek < 1 then 1 else draft.goalPerWeek) = max 1 draft.goalPerWeek
    split <;> omega

/-- Witness for C6: both branches of the `addHabit` specification at
concrete drafts. -/
theorem handleAddHabit_spec_witness :
    (jsTrim "   " = "" ∧
        handleAddHabit exHabits ⟨"   ", "🔥", 5, ""⟩ "id-a" "col" "t3" = exHabits) ∧
      (jsTrim " Stretch " ≠ "" ∧ ∃ h : Habit,
        handleAddHabit exHabits ⟨" Stretch ", "🔥", 0, "07:00"⟩ "id-b" "col" "t3"
            = h :: exHabits ∧
          h.name = jsTrim " Stretch " ∧
          h.goalPerWeek = max 1 0 ∧
          h.completions = [] ∧
          h.reminders = if ("07:00" : String) = "" then [] else ["07:00"]) :=
  ⟨⟨by decide,
      (handleAddHabit_spec exHabits ⟨"   ", "🔥", 5, ""⟩ "id-a" "col" "t3").1 (by decide)⟩,
    ⟨by decide,
      (handleAddHabit_spec exHabits ⟨" Stretch ", "🔥", 0, "07:00"⟩ "id-b" "col" "t3").2
        (by decide)⟩⟩

/-- Claim C2: `currentStreak` correctness.  If the reference day is not in
the habit's completion set the streak is 0 regardless of earlier history;
and if the completion set consists of exactly the last `k` consecutive
calendar days ending at the reference day (and nothing earlier), the streak
is exactly `k`. -/
theorem computeStreak_spec (habit : Habit) (now : Moment) :
    (getDateKey now ∉ habit.completions → computeStreak habit now = 0) ∧
      (∀ k : Nat,
        (∀ d : Int, d ∈ habit.completions ↔
          ∃ i : Nat, i < k ∧ d = getDateKey now - (i : Int)) →
        computeStreak habit now = k) := by
  constructor
  · intro h
    exact streakLoop_eq_zero h _
  · intro k hiff
    have hmem : ∀ i : Nat, i < k → getDateKey now - (i : Int) ∈ habit.completions :=
      fun i hi => (hiff _).mpr ⟨i, hi, rfl⟩
    have hnot : getDateKey now - (k : Int) ∉ habit.completions := by
      intro hcon
      obtain ⟨i, hik, hei⟩ := (hiff _).mp hcon
      omega
    have hndM : ((List.range k).map (fun i : Nat => getDateKey now - (i : Int))).Nodup :=
      List.Nodup.map (fun a b hab => by omega) (List.nodup_range k)
    have hsub : ((List.range k).map (fun i : Nat => getDateKey now - (i : Int)))
        ⊆ habit.completions := by
      intro d hd
      obtain ⟨i, hi, rfl⟩ := List.mem_map.mp hd
      exact hmem i (List.mem_range.mp hi)
    have hk_le : k ≤ habit.completions.length := by
      have := (hndM.subperm hsub).length_le
      simpa using this
    exact streakLoop_exact k (getDateKey now) (habit.completions.length + 1)
      (by omega) hmem hnot

/-- Witness for C2: both halves of the streak specification at concrete
habits — a habit not completed on the reference day, and a habit completed
on exactly the last two days. -/
theorem computeStreak_spec_witness :
    (10 : Int) ∉ exHabitA.completions ∧
      computeStreak exHabitA ⟨10, 9, 30, 0⟩ = 0 ∧
      (∀ d : Int, d ∈ exHabitB.completions ↔
        ∃ i : Nat, i < 3 ∧ d = getDateKey ⟨4, 9, 30, 0⟩ - (i : Int)) ∧
      computeStreak exHabitB ⟨4, 9, 30, 0⟩ = 3 := by
  refine ⟨by decide, ?_, ?_, ?_⟩
  · exact (computeStreak_spec exHabitA ⟨10, 9, 30, 0⟩).1 (by decide)
  · intro d
    show d ∈ ([2, 3, 4] : List Int) ↔ _
    simp only [List.mem_cons, List.not_mem_nil, or_false]
    constructor
    · rintro (rfl | rfl | rfl)
      · exact ⟨2, by omega, by norm_num [getDateKey]⟩
      · exact ⟨1, by omega, by norm_num [getDateKey]⟩
      · exact ⟨0, by omega, by norm_num [getDateKey]⟩
    · rintro ⟨i, hi, rfl⟩
      interval_cases i <;> norm_num [getDateKey]
  · refine (computeStreak_spec exHabitB ⟨4, 9, 30, 0⟩).2 3 ?_
    intro d
    show d ∈ ([2, 3, 4] : List Int) ↔ _
    simp only [List.mem_cons, List.not_mem_nil, or_false]
    constructor
    · rintro (rfl | rfl | rfl)
      · exact ⟨2, by omega, by norm_num [getDateKey]⟩
      · exact ⟨1, by omega, by norm_num [getDateKey]⟩
      · exact ⟨0, by omega, by norm_num [getDateKey]⟩
    · rintro ⟨i, hi, rfl⟩
      interval_cases i <;> norm_num [getDateKey]

/-- Claim C5: every Habit Store operation, applied to a collection whose
reminders and completions lists are all sorted and duplicate-free, returns
a collection whose reminders and completions lists are again all sorted and
duplicate-free. -/
theorem store_ops_preserve_invariant (habits : List Habit) (hInv : StoreInvariant habits) :
    (∀ (habitId : String) (dateKey : Int),
        StoreInvariant (handleToggleCompletion habits habitId dateKey)) ∧
      (∀ (draft : HabitDraft) (freshId color createdAt : String),
        StoreInvariant (handleAddHabit habits draft freshId color createdAt)) ∧
      (∀ habitId time : String, StoreInvariant (handleAddReminder habits habitId time)) ∧
      (∀ habitId time : String, StoreInvariant (handleRemoveReminder habits habitId time)) ∧
      (∀ habitId : String, StoreInvariant (handleDeleteHabit habits habitId)) := by
  obtain ⟨hc, hr⟩ := hInv
  refine ⟨?_, ?_, ?_, ?_, ?_⟩
  · intro habitId dateKey
    constructor
    · intro h hm
      obtain ⟨h0, hh0, rfl⟩ := List.mem_map.mp hm
      by_cases hid : h0.id ≠ habitId
      · rw [if_pos hid]; exact hc h0 hh0
      · rw [if_neg hid]; exact toggledCompletions_sorted h0.completions dateKey
    · intro h hm
      obtain ⟨h0, hh0, rfl⟩ := List.mem_map.mp hm
      by_cases hid : h0.id ≠ habitId
      · rw [if_pos hid]; exact hr h0 hh0
      · rw [if_neg hid]; exact hr h0 hh0
  · intro draft freshId color createdAt
    by_cases hname : jsTrim draft.name = ""
    · unfold handleAddHabit
      rw [if_pos hname]
      exact ⟨hc, hr⟩
    · unfold handleAddHabit
      rw [if_neg hname]
      constructor
      · intro h hm
        rcases List.mem_cons.mp hm with rfl | hm'
        · exact List.sorted_nil
        · exact hc h hm'
      · intro h hm
        rcases List.mem_cons.mp hm with rfl | hm'
        · show List.Sorted (· < ·)
            (if draft.reminderTime = "" then [] else [draft.reminderTime])
          split
          · exact List.sorted_nil
          · exact List.sorted_singleton _
        · exact hr h hm'
  · intro habitId time
    by_cases ht : time = ""
    · unfold handleAddReminder
      rw [if_pos ht]
      exact ⟨hc, hr⟩
    · unfold handleAddReminder
      rw [if_neg ht]
      constructor
      · intro h hm
        obtain ⟨h0, hh0, rfl⟩ := List.mem_map.mp hm
        by_cases hid : h0.id ≠ habitId
        · rw [if_pos hid]; exact hc h0 hh0
        · rw [if_neg hid]; exact hc h0 hh0
      · intro h hm
        obtain ⟨h0, hh0, rfl⟩ := List.mem_map.mp hm
        by_cases hid : h0.id ≠ habitId
        · rw [if_pos hid]; exact hr h0 hh0
        · rw [if_neg hid]
          exact sorted_lt_insertionSort (jsDedup_nodup _)
  · intro habitId time
    constructor
    · intro h hm
      obtain ⟨h0, hh0, rfl⟩ := List.mem_map.mp hm
      by_cases hid : h0.id ≠ habitId
      · rw [if_pos hid]; exact hc h0 hh0
      · rw [if_neg hid]; exact hc h0 hh0
    · intro h hm
      obtain ⟨h0, hh0, rfl⟩ := List.mem_map.mp hm
      by_cases hid : h0.id ≠ habitId
      · rw [if_pos hid]; exact hr h0 hh0
      · rw [if_neg hid]; exact (hr h0 hh0).filter _
  · intro habitId
    constructor
    · intro h hm
      exact hc h (List.mem_of_mem_filter hm)
    · intro h hm
      exact hr h (List.mem_of_mem_filter hm)

/-- Witness for C5: the preservation theorem applied to a concrete
invariant-satisfying collection and concrete operations. -/
theorem store_ops_preserve_invariant_witness :
    StoreInvariant exHabits ∧
      StoreInvariant (handleToggleCompletion exHabits "h1" 5) ∧
      StoreInvariant (handleAddHabit exHabits ⟨"Swim", "🏊", 2, "06:00"⟩ "id-c" "col" "t4") ∧
      StoreInvariant (handleAddReminder exHabits "h2" "09:15") ∧
      StoreInvariant (handleRemoveReminder exHabits "h2" "07:00") ∧
      StoreInvariant (handleDeleteHabit exHabits "h1") :=
  ⟨storeInvariant_exHabits,
    (store_ops_preserve_invariant exHabits storeInvariant_exHabits).1 "h1" 5,
    (store_ops_preserve_invariant exHabits storeInvariant_exHabits).2.1
      ⟨"Swim", "🏊", 2, "06:00"⟩ "id-c" "col" "t4",
    (store_ops_preserve_invariant exHabits storeInvariant_exHabits).2.2.1 "h2" "09:15",
    (store_ops_preserve_invariant exHabits storeInvariant_exHabits).2.2.2.1 "h2" "07:00",
    (store_ops_preserve_invariant exHabits storeInvariant_exHabits).2.2.2.2 "h1"⟩

/-- Claim C10: frame property of targeted store operations.
`toggleCompletion`, `addReminder` and `removeReminder` preserve the length
and leave every position holding a habit with a different id unchanged;
`deleteHabit` returns the subsequence of exactly those habits whose id
differs. -/
theorem targeted_ops_frame (habits : List Habit) (habitId : String) :
    (∀ dateKey : Int,
        (handleToggleCompletion habits habitId dateKey).length = habits.length ∧
          ∀ (i : Nat) (h : Habit), habits[i]? = some h → h.id ≠ habitId →
            (handleToggleCompletion habits habitId dateKey)[i]? = some h) ∧
      (∀ time : String,
        (handleAddReminder habits habitId time).length = habits.length ∧
          ∀ (i : Nat) (h : Habit), habits[i]? = some h → h.id ≠ habitId →
            (handleAddReminder habits habitId time)[i]? = some h) ∧
      (∀ time : String,
        (handleRemoveReminder habits habitId time).length = habits.length ∧
          ∀ (i : Nat) (h : Habit), habits[i]? = some h → h.id ≠ habitId →
            (handleRemoveReminder habits habitId time)[i]? = some h) ∧
      ((handleDeleteHabit habits habitId).Sublist habits ∧
        ∀ h : Habit, h ∈ handleDeleteHabit habits habitId ↔
          h ∈ habits ∧ h.id ≠ habitId) := by
  refine ⟨?_, ?_, ?_, ?_, ?_⟩
  · intro dateKey
    refine ⟨List.length_map _ _, ?_⟩
    intro i h hi hid
    rw [handleToggleCompletion, List.getElem?_map, hi]
    simp only [Option.map_some']
    rw [if_pos hid]
  · intro time
    by_cases ht : time = ""
    · unfold handleAddReminder
      rw [if_pos ht]
      exact ⟨rfl, fun i h hi _ => hi⟩
    · unfold handleAddReminder
      rw [if_neg ht]
      refine ⟨List.length_map _ _, ?_⟩
      intro i h hi hid
      rw [List.getElem?_map, hi]
      simp only [Option.map_some']
      rw [if_pos hid]
  · intro time
    refine ⟨List.length_map _ _, ?_⟩
    intro i h hi hid
    rw [handleRemoveReminder, List.getElem?_map, hi]
    simp only [Option.map_some']
    rw [if_pos hid]
  · exact List.filter_sublist _
  · intro h
    simp [handleDeleteHabit, List.mem_filter]

/-- Witness for C10: the frame theorem applied at a concrete collection,
showing the habit at index 0 survives targeted operations on the other
habit's id. -/
theorem targeted_ops_frame_witness :
    exHabits[0]? = some exHabitA ∧ exHabitA.id ≠ "h2" ∧
      (handleToggleCompletion exHabits "h2" 5)[0]? = some exHabitA ∧
      (handleAddReminder exHabits "h2" "09:15")[0]? = some exHabitA ∧
      (handleRemoveReminder exHabits "h2" "07:00")[0]? = some exHabitA :=
  ⟨by decide, by decide,
    ((targeted_ops_frame exHabits "h2").1 5).2 0 exHabitA (by decide) (by decide),
    ((targeted_ops_frame exHabits "h2").2.1 "09:15").2 0 exHabitA (by decide) (by decide),
    ((targeted_ops_frame exHabits "h2").2.2.1 "07:00").2 0 exHabitA (by decide) (by decide)⟩

/-- Claim C4: for every habit with a duplicate-free completion set,
`longestStreak` is at least `currentStreak` — the maximum consecutive-day
run over the whole set is at least the unbroken run ending at the current
day. -/
theorem computeStreak_le_getLongestStreak (habit : Habit) (now : Moment)
    (hnd : habit.completions.Nodup) :
    computeStreak habit now ≤ getLongestStreak habit := by
  by_cases h0 : computeStreak habit now = 0
  · rw [h0]
    exact Nat.zero_le _
  · have hpos : 0 < computeStreak habit now := Nat.pos_of_ne_zero h0
    have hmem : ∀ i : Nat, i < computeStreak habit now →
        getDateKey now - (i : Int) ∈ habit.completions :=
      fun i hi => streakLoop_mem (habit.completions.length + 1) (getDateKey now) i hi
    have hmem' : ∀ i : Nat, i < computeStreak habit now →
        getDateKey now - (i : Int) ∈ (List.insertionSort (· ≤ ·) habit.completions).reverse := by
      intro i hi
      rw [List.mem_reverse]
      exact (List.perm_insertionSort (· ≤ ·) habit.completions).mem_iff.mpr (hmem i hi)
    obtain ⟨pre, suf, hps⟩ := sorted_gt_run_decomp _ (sorted_gt_sortedDesc hnd)
      (computeStreak habit now) (getDateKey now) hpos hmem'
    unfold getLongestStreak
    rw [hps]
    exact longestAux_run_anywhere _ hpos pre _ suf none 0 0 le_rfl

/-- Witness for C4: the inequality at a concrete habit with a
duplicate-free completion set. -/
theorem computeStreak_le_getLongestStreak_witness :
    exHabitB.completions.Nodup ∧
      computeStreak exHabitB ⟨4, 9, 30, 0⟩ ≤ getLongestStreak exHabitB :=
  ⟨by decide, computeStreak_le_getLongestStreak exHabitB ⟨4, 9, 30, 0⟩ (by decide)⟩

section TickLemmas

theorem tickReminderStep_of_parse_none {now : Moment} {habit : Habit}
    {time : String} (hp : parseClock time = none)
    (acc : ReminderCache × List ReminderAlert) :
    tickReminderStep now habit acc time = acc := by
  unfold tickReminderStep
  rw [hp]
  rfl

theorem foldl_tickReminderStep_filter (now : Moment) (habit : Habit) :
    ∀ (times : List String) (acc : ReminderCache × List ReminderAlert),
      (times.filter (fun t => (parseClock t).isSome)).foldl (tickReminderStep now habit) acc
        = times.foldl (tickReminderStep now habit) acc := by
  intro times
  induction times with
  | nil => intro acc; rfl
  | cons t ts ih =>
    intro acc
    cases hp : parseClock t with
    | none =>
      rw [List.filter_cons_of_neg (by simp [hp])]
      rw [List.foldl_cons, tickReminderStep_of_parse_none hp acc]
      exact ih acc
    | some pr =>
      rw [List.filter_cons_of_pos (by simp [hp])]
      rw [List.foldl_cons, List.foldl_cons]
      exact ih _

theorem parseClock_range {time : String} {hr mi : Int}
    (h : parseClock time = some (hr, mi)) :
    0 ≤ hr ∧ hr ≤ 23 ∧ 0 ≤ mi ∧ mi ≤ 59 := by
  unfold parseClock at h
  rcases hsp : splitOnChar ':' time.data with _ | ⟨hd, tl⟩
  · rw [hsp] at h
    simp [clockFromParts] at h
  · rw [hsp] at h
    rcases tl with _ | ⟨m, rest⟩
    · simp [clockFromParts] at h
    · simp only [clockFromParts] at h
      rcases hn : jsNumber hd with _ | hour
      · rw [hn] at h
        simp [clockOfNums] at h
      · rw [hn] at h
        rcases hm : jsNumber m with _ | minute
        · rw [hm] at h
          simp [clockOfNums] at h
        · rw [hm] at h
          simp only [clockOfNums] at h
          split at h
          · next hcond =>
            simp only [Option.some.injEq, Prod.mk.injEq] at h
            obtain ⟨rfl, rfl⟩ := h
            exact hcond
          · simp at h

end TickLemmas

/-- Claim C8: invalid reminder entries are skipped, never erroring, and do
not affect the evaluation of any other entry.  First conjunct: a tick on
any habit collection equals the tick on the collection with every
non-evaluable entry removed (so skipped entries have no effect, and every
other entry of every habit is still evaluated).  Second conjunct: for an
entry whose split has at least two components, being skipped is exactly a
non-numeric hour component, a non-numeric minute component, or an
hour/minute outside 0–23 / 0–59.  Third conjunct: an evaluable entry can
fire — at its own target time with an empty cache it emits an alert. -/
theorem tick_skips_invalid_entries :
    (∀ (cache : ReminderCache) (now : Moment) (habits : List Habit),
        tick cache now habits =
          tick cache now (habits.map fun h =>
            { h with reminders := h.reminders.filter (fun t => (parseClock t).isSome) })) ∧
      (∀ (time : String) (h m : List Char) (rest : List (List Char)),
        splitOnChar ':' time.data = h :: m :: rest →
        (parseClock time = none ↔
          jsNumber h = none ∨ jsNumber m = none ∨
            ∃ hr mi : Int, jsNumber h = some hr ∧ jsNumber m = some mi ∧
              ¬(0 ≤ hr ∧ hr ≤ 23 ∧ 0 ≤ mi ∧ mi ≤ 59))) ∧
      (∀ (habit : Habit) (time : String) (hr mi d : Int),
        parseClock time = some (hr, mi) → habit.reminders = [time] →
        (tick ⟨d, []⟩ ⟨d, hr.toNat, mi.toNat, 0⟩ [habit]).2.length = 1) := by
  refine ⟨?_, ?_, ?_⟩
  · intro cache now habits
    simp only [tick]
    rw [List.foldl_map]
    refine List.foldl_ext _ _ _ ?_
    intro acc h hmem
    show h.reminders.foldl (tickReminderStep now h) acc
      = (h.reminders.filter (fun t => (parseClock t).isSome)).foldl
          (tickReminderStep now
            { h with reminders := h.reminders.filter (fun t => (parseClock t).isSome) }) acc
    have hfun : tickReminderStep now
        { h with reminders := h.reminders.filter (fun t => (parseClock t).isSome) }
          = tickReminderStep now h :=
      funext fun acc => funext fun t => rfl
    rw [hfun, foldl_tickReminderStep_filter]
  · intro time h m rest hsplit
    unfold parseClock
    rw [hsplit]
    simp only [clockFromParts]
    rcases hh : jsNumber h with _ | hr
    · simp [clockOfNums]
    · rcases hm : jsNumber m with _ | mi
      · simp [clockOfNums]
      · simp only [clockOfNums]
        by_cases hrange : 0 ≤ hr ∧ hr ≤ 23 ∧ 0 ≤ mi ∧ mi ≤ 59
        · rw [if_pos hrange]
          simp [hrange]
        · rw [if_neg hrange]
          constructor
          · intro _
            exact Or.inr (Or.inr ⟨hr, mi, rfl, rfl, hrange⟩)
          · intro _
            rfl
  · intro habit time hr mi d hp hrem
    obtain ⟨h1, h2, h3, h4⟩ := parseClock_range hp
    simp only [tick, List.foldl_cons, List.foldl_nil]
    rw [hrem]
    simp only [List.foldl_cons, List.foldl_nil]
    rw [if_neg (by simp [getDateKey])]
    unfold tickReminderStep
    rw [hp]
    simp only [tickReminderFire]
    have hdelta : ((⟨d, hr.toNat, mi.toNat, 0⟩ : Moment).nowSeconds
        - (hr * 3600 + mi * 60)).natAbs = 0 := by
      have hns : (⟨d, hr.toNat, mi.toNat, 0⟩ : Moment).nowSeconds = hr * 3600 + mi * 60 := by
        show (hr.toNat : Int) * 3600 + (mi.toNat : Int) * 60 + ((0 : Nat) : Int)
          = hr * 3600 + mi * 60
        rw [Int.toNat_of_nonneg h1, Int.toNat_of_nonneg h3]
        ring
      rw [hns]
      simp
    rw [hdelta]
    rw [if_pos (by simp)]
    simp

/-- Witness for C8: the skip-equation at a collection holding an invalid
entry (`"25:00"`), the skip characterization at that entry, and a fire of a
valid entry, with each hypothesis discharged concretely. -/
theorem tick_skips_invalid_entries_witness :
    (tick ⟨20000, []⟩ ⟨20000, 7, 0, 0⟩
        [{ exHabitA with reminders := ["25:00", "ab:cd", "07:00"] }] =
      tick ⟨20000, []⟩ ⟨20000, 7, 0, 0⟩
        [{ exHabitA with reminders := ["07:00"] }]) ∧
      splitOnChar ':' "25:00".data = ["25:00".data.take 2, "25:00".data.drop 3] ∧
      (parseClock "25:00" = none ↔
        jsNumber ("25:00".data.take 2) = none ∨ jsNumber ("25:00".data.drop 3) = none ∨
          ∃ hr mi : Int, jsNumber ("25:00".data.take 2) = some hr ∧
            jsNumber ("25:00".data.drop 3) = some mi ∧
            ¬(0 ≤ hr ∧ hr ≤ 23 ∧ 0 ≤ mi ∧ mi ≤ 59)) ∧
      parseClock "19:30" = some (19, 30) ∧
      exHabitB.reminders ≠ ["19:30"] ∧
      (tick ⟨500, []⟩ ⟨500, (19 : Int).toNat, (30 : Int).toNat, 0⟩
        [{ exHabitB with reminders := ["19:30"] }]).2.length = 1 := by
  refine ⟨?_, by decide, ?_, by decide, by decide, ?_⟩
  · have h := tick_skips_invalid_entries.1 ⟨20000, []⟩ ⟨20000, 7, 0, 0⟩
      [{ exHabitA with reminders := ["25:00", "ab:cd", "07:00"] }]
    rw [h]
    decide
  · exact tick_skips_invalid_entries.2.1 "25:00" ("25:00".data.take 2)
      ("25:00".data.drop 3) [] (by decide)
  · exact tick_skips_invalid_entries.2.2
      { exHabitB with reminders := ["19:30"] } "19:30" 19 30 500 (by decide) rfl

end HabitTracker
